import Mathlib

/-!
Shallow embedding of `collect-regional-kinetics` (src/src/main.rs).

Machine integers (`i64`) are modelled as `Int` together with explicit
checked operations that fail outside `[-2^63, 2^63 - 1]`, mirroring Rust's
`checked_sub` / `checked_add` / `checked_mul`.  A Rust `panic` is modelled
as an error value of an explicit error type.  `f32` values are modelled by
an inductive `F32` (finite rational, infinities, NaN): the program never
performs float arithmetic, it only moves float values around and tests
`is_finite`, so this captures exactly the used behaviour.
-/

namespace CRK

/-- Smallest `i64` value, `-2^63`. -/
def i64Min : Int := -(2 ^ 63)

/-- Largest `i64` value, `2^63 - 1`. -/
def i64Max : Int := 2 ^ 63 - 1

/-- Rust `i64::checked_sub`: the mathematical difference when it is
representable in `i64`, otherwise `none`. -/
def checkedSub (a b : Int) : Option Int :=
  if i64Min ≤ a - b ∧ a - b ≤ i64Max then some (a - b) else none

/-- Rust `i64::checked_add`: the mathematical sum when representable. -/
def checkedAdd (a b : Int) : Option Int :=
  if i64Min ≤ a + b ∧ a + b ≤ i64Max then some (a + b) else none

/-- Rust `i64::checked_mul`: the mathematical product when representable. -/
def checkedMul (a b : Int) : Option Int :=
  if i64Min ≤ a * b ∧ a * b ≤ i64Max then some (a * b) else none

/-- `f32` as used by the program: a value is finite (carrying its rational
value), an infinity, or NaN.  Only `is_finite` and equality of stored
values are ever used. -/
inductive F32 where
  | finite (q : Rat)
  | inf
  | negInf
  | nan
deriving DecidableEq

/-- Rust `f32::is_finite`. -/
def F32.isFinite : F32 → Bool
  | .finite _ => true
  | _ => false

/-- `IpdSummaryKey` (main.rs lines 53-62): chromosome name, 1-based
position (`i64`), strand (`u8`, 0 = plus / 1 = minus). -/
structure IpdSummaryKey where
  refName : String
  tpl : Int
  strand : Nat
deriving DecidableEq

/-- `IpdSummaryKey::new` (main.rs line 66). -/
def IpdSummaryKey.new (refName : String) (tpl : Int) (strand : Nat) : IpdSummaryKey :=
  ⟨refName, tpl, strand⟩

/-- Errors with which the window expanders abort (Rust: `panic`).
`overflow tpl ext` carries the data interpolated into the Rust panic
message "Target position overflowed. IpdSummary tpl: {tpl}, extension
length: {ext}"; `badStrand` is the "Unexpected strand" panic. -/
inductive ExtendError where
  | overflow (tpl ext : Int)
  | badStrand
deriving DecidableEq

instance {ε α : Type} [DecidableEq ε] [DecidableEq α] : DecidableEq (Except ε α)
  | .error a, .error b =>
    if h : a = b then .isTrue (by rw [h]) else .isFalse (by intro hc; cases hc; exact h rfl)
  | .error _, .ok _ => .isFalse (by intro hc; cases hc)
  | .ok _, .error _ => .isFalse (by intro hc; cases hc)
  | .ok a, .ok b =>
    if h : a = b then .isTrue (by rw [h]) else .isFalse (by intro hc; cases hc; exact h rfl)

/-- The inclusive integer range `lo..=hi` as a list (empty when `lo > hi`). -/
def intRange (lo hi : Int) : List Int :=
  (List.range (hi + 1 - lo).toNat).map (fun i => lo + Int.ofNat i)

/-- The `flat_map` of main.rs lines 107-109 / 120-122: for every position
in `lo..=hi` emit the plus-strand key then the minus-strand key. -/
def rangeFlat (chr : String) (lo hi : Int) : List IpdSummaryKey :=
  (intRange lo hi).flatMap (fun p =>
    [IpdSummaryKey.new chr p 0, IpdSummaryKey.new chr p 1])

/-- `IpdSummaryKey::extend_without_strand` (main.rs lines 114-123):
extend ignoring the key's strand.  The two checked operations run eagerly
(in rust they are in the function body, before the iterator is built), the
subtraction first, each aborting with the overflow panic on failure. -/
def extend_without_strand (k : IpdSummaryKey) (up down : Int) :
    Except ExtendError (List IpdSummaryKey) :=
  match checkedSub k.tpl up with
  | none => .error (.overflow k.tpl up)
  | some position_left =>
    match checkedAdd k.tpl down with
    | none => .error (.overflow k.tpl down)
    | some position_right => .ok (rangeFlat k.refName position_left position_right)

/-- `IpdSummaryKey::extend` (main.rs lines 88-111): extend respecting the
key's strand.  For a minus-strand key the extension lengths `up` and
`down` are swapped when computing the bounds, and the keys are produced in
reversed order. -/
def extend (k : IpdSummaryKey) (up down : Int) :
    Except ExtendError (List IpdSummaryKey) :=
  match k.strand with
  | 0 =>
    match checkedSub k.tpl up with
    | none => .error (.overflow k.tpl up)
    | some position_left =>
      match checkedAdd k.tpl down with
      | none => .error (.overflow k.tpl down)
      | some position_right => .ok (rangeFlat k.refName position_left position_right)
  | 1 =>
    match checkedSub k.tpl down with
    | none => .error (.overflow k.tpl down)
    | some position_left =>
      match checkedAdd k.tpl up with
      | none => .error (.overflow k.tpl up)
      | some position_right => .ok ((rangeFlat k.refName position_left position_right).reverse)
  | _ => .error .badStrand

example :
    extend (IpdSummaryKey.new "chrX" 100 0) 1 2 =
      .ok [IpdSummaryKey.new "chrX" 99 0, IpdSummaryKey.new "chrX" 99 1,
           IpdSummaryKey.new "chrX" 100 0, IpdSummaryKey.new "chrX" 100 1,
           IpdSummaryKey.new "chrX" 101 0, IpdSummaryKey.new "chrX" 101 1,
           IpdSummaryKey.new "chrX" 102 0, IpdSummaryKey.new "chrX" 102 1] := by
  decide

example :
    extend (IpdSummaryKey.new "chrX" 100 1) 1 2 =
      .ok [IpdSummaryKey.new "chrX" 101 1, IpdSummaryKey.new "chrX" 101 0,
           IpdSummaryKey.new "chrX" 100 1, IpdSummaryKey.new "chrX" 100 0,
           IpdSummaryKey.new "chrX" 99 1, IpdSummaryKey.new "chrX" 99 0,
           IpdSummaryKey.new "chrX" 98 1, IpdSummaryKey.new "chrX" 98 0] := by
  decide

example :
    extend_without_strand (IpdSummaryKey.new "chrX" 100 1) 1 2 =
      .ok [IpdSummaryKey.new "chrX" 99 0, IpdSummaryKey.new "chrX" 99 1,
           IpdSummaryKey.new "chrX" 100 0, IpdSummaryKey.new "chrX" 100 1,
           IpdSummaryKey.new "chrX" 101 0, IpdSummaryKey.new "chrX" 101 1,
           IpdSummaryKey.new "chrX" 102 0, IpdSummaryKey.new "chrX" 102 1] := by
  decide

/-- `IpdSummaryValue` (main.rs lines 213-227): the per-position kinetics
record.  `u32` fields are `Nat`, `f32` fields are `F32`. -/
structure IpdSummaryValue where
  base : Option Char
  score : Nat
  tMean : F32
  tErr : F32
  modelPrediction : F32
  ipdRatio : F32
  coverage : Nat
  frac : Option F32
  fracLow : Option F32
  fracUp : Option F32
deriving DecidableEq

/-- Rust `IpdSummaryValue::default()`: all numeric fields zero, no base,
zero coverage, no fraction fields. -/
def IpdSummaryValue.default : IpdSummaryValue :=
  ⟨none, 0, .finite 0, .finite 0, .finite 0, .finite 0, 0, none, none, none⟩

/-- The row-map backend's data (main.rs line 366): a `HashMap` from keys
to records, modelled extensionally as a partial lookup function. -/
def RowMap : Type := IpdSummaryKey → Option IpdSummaryValue

/-- The row-map backend's lookup (main.rs line 378):
`kinetics.get(&key).unwrap_or(&default_ipd_summary_value)`. -/
def rowLookup (m : RowMap) (k : IpdSummaryKey) : IpdSummaryValue :=
  (m k).getD IpdSummaryValue.default

/-- `ChrKineticsHdf5` (main.rs lines 394-411): parallel columnar arrays
for one chromosome.  `base` holds one-character ASCII strings as in the
HDF5 file.  The arrays of a well-formed file all have the same length;
Rust would abort on a ragged file (index panic), which the claims never
reach, so out-of-range reads of the non-guard arrays are modelled with
`List.getD` defaults. -/
structure ChrKineticsHdf5 where
  tpl : List Nat
  strand : List Nat
  base : List String
  score : List Nat
  tMean : List F32
  tErr : List F32
  modelPrediction : List F32
  ipdRatio : List F32
  coverage : List Nat
  frac : List F32
  fracLow : List F32
  fracUp : List F32

/-- Rust `ChrKineticsHdf5::default()`: all arrays empty. -/
def ChrKineticsHdf5.default : ChrKineticsHdf5 :=
  ⟨[], [], [], [], [], [], [], [], [], [], [], []⟩

/-- `ChrKineticsHdf5::get_ipd_summary_value` (main.rs lines 462-491).
A negative `pre_index` means no entry (`opt_index = None`); for a
non-negative one the conversion to `usize` always succeeds.  The lookup
hits only when the offset is inside `coverage` and the stored coverage is
positive; otherwise the default record is returned.  The two
`debug_assert_eq` consistency checks are compiled out in release builds
and are not modelled.  `has_frac` gates all three fraction fields on
finiteness of the stored `frac` value. -/
def pre_index (key : IpdSummaryKey) : Int :=
  (key.tpl - 1) * 2 + (key.strand : Int)

/-- The record assembled from the columnar arrays at offset `index`
(main.rs lines 475-487), the hit branch of `get_ipd_summary_value`. -/
def hitValue (c : ChrKineticsHdf5) (index : Nat) : IpdSummaryValue :=
  { base := (c.base.getD index "").toList.head?
    score := c.score.getD index 0
    tMean := c.tMean.getD index .nan
    tErr := c.tErr.getD index .nan
    modelPrediction := c.modelPrediction.getD index .nan
    ipdRatio := c.ipdRatio.getD index .nan
    coverage := c.coverage.getD index 0
    frac := if (c.frac.getD index .nan).isFinite then some (c.frac.getD index .nan) else none
    fracLow := if (c.frac.getD index .nan).isFinite then some (c.fracLow.getD index .nan) else none
    fracUp := if (c.frac.getD index .nan).isFinite then some (c.fracUp.getD index .nan) else none }

def get_ipd_summary_value (c : ChrKineticsHdf5) (key : IpdSummaryKey) : IpdSummaryValue :=
  if 0 ≤ pre_index key then
    if (pre_index key).toNat < c.coverage.length ∧
        0 < c.coverage.getD (pre_index key).toNat 0 then
      hitValue c (pre_index key).toNat
    else IpdSummaryValue.default
  else IpdSummaryValue.default

/-- The per-run chromosome map of the HDF5 backend (main.rs line 511),
modelled extensionally; line 521 falls back to the empty
`ChrKineticsHdf5` when the chromosome is absent. -/
def ChrMap : Type := String → Option ChrKineticsHdf5

/-- main.rs line 521:
`kinetics_datasets.get(&refName).unwrap_or(&default_chr_kinetics)`. -/
def chrLookup (ds : ChrMap) (chr : String) : ChrKineticsHdf5 :=
  (ds chr).getD ChrKineticsHdf5.default

/-- The two backends hold equivalent data: for every valid key (1-based
position at least 1, binary strand) the row map has an entry exactly when
the columnar arrays encode one at the derived offset (offset inside the
arrays and stored coverage positive — PacBio HDF5 encodes a missing base
as coverage 0), and that entry's fields are the ones the arrays store at
that offset, with the fraction fields present exactly when the stored
`frac` is finite (NaN encodes absence in the HDF5 file, `None` in the
CSV). -/
def equivData (m : RowMap) (c : ChrKineticsHdf5) : Prop :=
  ∀ k : IpdSummaryKey, 1 ≤ k.tpl → k.strand < 2 →
    ∀ v : IpdSummaryValue,
      m k = some v ↔
        ((pre_index k).toNat < c.coverage.length ∧
          0 < c.coverage.getD (pre_index k).toNat 0 ∧
          v = hitValue c (pre_index k).toNat)

/-- The `part` computation of `TargetIpd::create_label` (main.rs lines
250-259), shared verbatim by `TargetIpdRich::create_region`.  `none`
models the two panics (position below 1 / beyond the region length). -/
def labelPart (position region_width region_extension : Int) : Option Char :=
  if position ≤ 0 then none
  else if position ≤ region_extension then some 's'
  else if position ≤ region_extension + region_width then some 'm'
  else if position ≤ 2 * region_extension + region_width then some 'e'
  else none

/-- `TargetIpd::create_label` (main.rs lines 249-272): part code, then the
relative position within the part, then the strand code. -/
def create_label (position region_width region_extension : Int) (strand : Char) :
    Option String := do
  let part ← labelPart position region_width region_extension
  let relative_position : Int :=
    if part = 's' then position
    else if part = 'm' then position - region_extension
    else position - region_extension - region_width
  let label_strand ←
    if strand = '+' then some 'p'
    else if strand = '-' then some 'm'
    else none
  some (String.singleton part ++ toString relative_position ++ String.singleton label_strand)

/-- `TargetIpdRich::create_region` (main.rs lines 315-326): the
human-readable window-part name, same thresholds as `labelPart`. -/
def create_region (position region_width region_extension : Int) : Option String :=
  if position ≤ 0 then none
  else if position ≤ region_extension then some "Upstream"
  else if position ≤ region_extension + region_width then some "Target"
  else if position ≤ 2 * region_extension + region_width then some "Downstream"
  else none

example : create_label 3 10 5 '+' = some "s3p" := by decide
example : create_label 17 12 5 '-' = some "m12m" := by decide
example : create_label 20 12 5 '-' = some "e3m" := by decide
example : create_region 3 10 5 = some "Upstream" := by decide

/-- The per-occurrence key expansion of the two pipelines (main.rs lines
371-376 and 515-520): `extend_without_strand` with `up = occ_extension`
and `down = occ_extension + occ_width - 1`, with the whole sequence
reversed for a minus-strand occurrence.  The overflow panics inside
`extend_without_strand` fire before the strand is inspected. -/
def expandOcc (k : IpdSummaryKey) (occ_width occ_extension : Int) :
    Except ExtendError (List IpdSummaryKey) :=
  match extend_without_strand k occ_extension (occ_extension + occ_width - 1) with
  | .error er => .error er
  | .ok pre_target_keys =>
    match k.strand with
    | 0 => .ok pre_target_keys
    | 1 => .ok pre_target_keys.reverse
    | _ => .error .badStrand

/-- `TargetIpdRich` (main.rs lines 286-310): one output row. -/
structure TargetIpdRich where
  position : Int
  strand : Char
  value : F32
  label : String
  src : Int
  base : Option Char
  score : Nat
  tErr : F32
  modelPrediction : F32
  ipdRatio : F32
  coverage : Nat
  ref_chr : String
  ref_position : Int
  ref_strand : Nat
  region : String
deriving DecidableEq

/-- `TargetIpdRich::new` (main.rs lines 328-346).  `none` models the
panics reachable through `create_label` / `create_region`. -/
def TargetIpdRich.new (position : Int) (strand : Char) (src : Int)
    (region_width region_extension : Int) (key : IpdSummaryKey)
    (values : IpdSummaryValue) : Option TargetIpdRich := do
  let label ← create_label position region_width region_extension strand
  let region ← create_region position region_width region_extension
  some { position := position
         strand := strand
         value := values.tMean
         label := label
         src := src
         base := values.base
         score := values.score
         tErr := values.tErr
         modelPrediction := values.modelPrediction
         ipdRatio := values.ipdRatio
         coverage := values.coverage
         ref_chr := key.refName
         ref_position := key.tpl
         ref_strand := key.strand
         region := region }

/-- Errors with which a whole run aborts.  `regionOverflow` is the
`RegionOverflow` error value of main.rs lines 539-555 returned by `main`
(line 599); the other constructors model the panics and the
`assert_eq` of the occurrence loop. -/
inductive MainError where
  | regionOverflow
  | occError (e : ExtendError)
  | rowPanic
  | assertFailed
deriving DecidableEq

/-- The run-level precondition check of `main` (main.rs line 599):
`region_extension.checked_mul(2)` then `.checked_add(occ_width)`, each
failure mapped to the `RegionOverflow` error. -/
def mainCheck (region_extension occ_width : Int) : Except MainError Unit :=
  match checkedMul region_extension 2 with
  | none => .error .regionOverflow
  | some x =>
    match checkedAdd x occ_width with
    | none => .error .regionOverflow
    | some _ => .ok ()

/-- The body of the occurrence loop (main.rs lines 368-384 / 512-529):
expand the occurrence, look every key up, build one `TargetIpdRich` per
key (offset `j/2 + 1`, strand `+` for even `j`), then run the
`assert_eq` on the result length. -/
def processOcc (lookup : IpdSummaryKey → IpdSummaryValue)
    (occ_width occ_extension : Int) (i : Nat) (occ : IpdSummaryKey) :
    Except MainError (List TargetIpdRich) :=
  match expandOcc occ occ_width occ_extension with
  | .error er => .error (.occError er)
  | .ok target_keys =>
    match target_keys.enum.mapM (fun (j, key) =>
        TargetIpdRich.new ((j / 2 : Nat) + 1) (if j % 2 = 0 then '+' else '-')
          ((i : Int) + 1) occ_width occ_extension key (lookup key)) with
    | none => .error .rowPanic
    | some target_vals =>
      if (target_vals.length : Int) = (occ_extension * 2 + occ_width) * 2 then
        .ok target_vals
      else .error .assertFailed

/-- The occurrence loop itself: occurrences in input order, enumerated
from 0, each contributing its rows to the output stream. -/
def collectRows (lookup : IpdSummaryKey → IpdSummaryValue)
    (occ_width occ_extension : Int) :
    Nat → List IpdSummaryKey → Except MainError (List TargetIpdRich)
  | _, [] => .ok []
  | i, occ :: rest =>
    match processOcc lookup occ_width occ_extension i occ with
    | .error er => .error er
    | .ok rows =>
      match collectRows lookup occ_width occ_extension (i + 1) rest with
      | .error er => .error er
      | .ok rest_rows => .ok (rows ++ rest_rows)

/-- `main` (main.rs lines 592-608) restricted to what it computes: the
region-overflow precondition check runs first, before any occurrence is
read or processed; only then does the occurrence loop run. -/
def runMain (lookup : IpdSummaryKey → IpdSummaryValue)
    (occ_width region_extension : Int) (occs : List IpdSummaryKey) :
    Except MainError (List TargetIpdRich) :=
  match mainCheck region_extension occ_width with
  | .error er => .error er
  | .ok _ => collectRows lookup occ_width region_extension 0 occs

/-! ### Helper lemmas -/

theorem checkedSub_some {a b x : Int} (h : checkedSub a b = some x) :
    x = a - b ∧ i64Min ≤ a - b ∧ a - b ≤ i64Max := by
  unfold checkedSub at h
  split_ifs at h with hc
  exact ⟨(Option.some.inj h).symm, hc.1, hc.2⟩

theorem checkedAdd_some {a b x : Int} (h : checkedAdd a b = some x) :
    x = a + b ∧ i64Min ≤ a + b ∧ a + b ≤ i64Max := by
  unfold checkedAdd at h
  split_ifs at h with hc
  exact ⟨(Option.some.inj h).symm, hc.1, hc.2⟩

theorem checkedMul_some {a b x : Int} (h : checkedMul a b = some x) :
    x = a * b ∧ i64Min ≤ a * b ∧ a * b ≤ i64Max := by
  unfold checkedMul at h
  split_ifs at h with hc
  exact ⟨(Option.some.inj h).symm, hc.1, hc.2⟩

theorem intRange_length (lo hi : Int) : (intRange lo hi).length = (hi + 1 - lo).toNat := by
  unfold intRange
  rw [List.length_map, List.length_range]

theorem flatMap_pair_length {α β : Type} (f g : α → β) :
    ∀ l : List α, (l.flatMap (fun p => [f p, g p])).length = 2 * l.length := by
  intro l
  induction l with
  | nil => rfl
  | cons a t ih => simp [List.flatMap_cons, ih]; omega

theorem rangeFlat_length (chr : String) (lo hi : Int) :
    (rangeFlat chr lo hi).length = 2 * (hi + 1 - lo).toNat := by
  rw [rangeFlat, flatMap_pair_length, intRange_length]

theorem mapM_option_length {α β : Type} (f : α → Option β) :
    ∀ (l : List α) (l' : List β), l.mapM f = some l' → l'.length = l.length := by
  intro l
  induction l with
  | nil =>
    intro l' h
    simp only [List.mapM_nil, pure, Option.some.injEq] at h
    simp [← h]
  | cons a t ih =>
    intro l' h
    rw [List.mapM_cons] at h
    cases hf : f a with
    | none => rw [hf] at h; exact Option.noConfusion h
    | some b =>
      rw [hf] at h
      cases hmt : t.mapM f with
      | none => rw [hmt] at h; exact Option.noConfusion h
      | some ts =>
        rw [hmt] at h
        simp at h
        subst h
        simp [ih ts hmt]

/-- If `extend_without_strand` succeeds, its result is the double-stranded
key list over the exact mathematical range `[tpl - up, tpl + down]`. -/
theorem extend_without_strand_ok {k : IpdSummaryKey} {up down : Int}
    {l : List IpdSummaryKey} (h : extend_without_strand k up down = .ok l) :
    l = rangeFlat k.refName (k.tpl - up) (k.tpl + down) ∧
      i64Min ≤ k.tpl - up ∧ k.tpl + down ≤ i64Max := by
  unfold extend_without_strand at h
  cases hsub : checkedSub k.tpl up with
  | none => rw [hsub] at h; exact Except.noConfusion h
  | some pl =>
    rw [hsub] at h
    cases hadd : checkedAdd k.tpl down with
    | none => rw [hadd] at h; exact Except.noConfusion h
    | some pr =>
      rw [hadd] at h
      obtain ⟨hpl, hlo, _⟩ := checkedSub_some hsub
      obtain ⟨hpr, _, hhi⟩ := checkedAdd_some hadd
      subst hpl hpr
      exact ⟨(Except.ok.inj h).symm, hlo, hhi⟩

/-- Helper: the per-occurrence expansion, when it succeeds with width
`w ≥ 1` and extension `e ≥ 0`, yields `(2e + w) * 2` keys. -/
theorem expandOcc_ok_length {k : IpdSummaryKey} {w e : Int}
    {l : List IpdSummaryKey} (hw : 1 ≤ w) (he : 0 ≤ e)
    (h : expandOcc k w e = .ok l) : (l.length : Int) = (2 * e + w) * 2 := by
  unfold expandOcc at h
  cases hx : extend_without_strand k e (e + w - 1) with
  | error er => rw [hx] at h; exact Except.noConfusion h
  | ok pre =>
    rw [hx] at h
    obtain ⟨hpre, -, -⟩ := extend_without_strand_ok hx
    have hlen : (pre.length : Int) = (2 * e + w) * 2 := by
      rw [hpre, rangeFlat_length]
      have h1 : k.tpl + (e + w - 1) + 1 - (k.tpl - e) = 2 * e + w := by ring
      rw [h1]
      have h2 : (0:Int) ≤ 2 * e + w := by omega
      push_cast [Int.toNat_of_nonneg h2]
      ring
    cases hks : k.strand with
    | zero =>
      rw [hks] at h
      rw [← Except.ok.inj h]
      exact hlen
    | succ n =>
      cases n with
      | zero =>
        rw [hks] at h
        rw [← Except.ok.inj h]
        simpa using hlen
      | succ m => rw [hks] at h; exact Except.noConfusion h

/-! ### Claim theorems -/

/-- C1 counterexample.  The claim says that for a minus-strand key,
`extend (u, d)` is exactly the reverse of `extend_without_strand (u, d)`.
At the key (chrX, 100, minus) with `u = 1`, `d = 2`, `extend` covers
positions 101 down to 98 (as the repository's own test `key_extend1neg`
records) while the reverse of `extend_without_strand` covers 102 down to
99, so the claim fails. -/
theorem extend_minus_reverse_cex :
    extend (IpdSummaryKey.new "chrX" 100 1) 1 2 ≠
      Except.map List.reverse (extend_without_strand (IpdSummaryKey.new "chrX" 100 1) 1 2) := by
  decide

/-- C1 (amended): for a plus-strand key, `extend (u, d)` equals
`extend_without_strand (u, d)`; for a minus-strand key, `extend (u, d)`
equals the reverse of `extend_without_strand` with the two extension
lengths swapped, i.e. of `extend_without_strand (d, u)` (hence the plain
reverse of `extend_without_strand (u, d)` exactly when `u = d`).  The
equality also covers the overflow error paths. -/
theorem extend_strand_equiv (k : IpdSummaryKey) (u d : Int) :
    (k.strand = 0 → extend k u d = extend_without_strand k u d) ∧
    (k.strand = 1 →
      extend k u d = Except.map List.reverse (extend_without_strand k d u)) := by
  obtain ⟨chr, tpl, s⟩ := k
  constructor
  · intro hs
    simp only at hs
    subst hs
    rfl
  · intro hs
    simp only at hs
    subst hs
    show (match checkedSub tpl d with
      | none => Except.error (ExtendError.overflow tpl d)
      | some position_left =>
        match checkedAdd tpl u with
        | none => Except.error (ExtendError.overflow tpl u)
        | some position_right =>
          Except.ok (rangeFlat chr position_left position_right).reverse) = _
    unfold extend_without_strand
    cases checkedSub tpl d with
    | none => rfl
    | some pl =>
      cases checkedAdd tpl u with
      | none => rfl
      | some pr => rfl

/-- C1 witness: the amended claim at the plus-strand key (chrX, 100, 0)
and the minus-strand key (chrX, 100, 1) with extension lengths 1 and 2. -/
theorem extend_strand_equiv_w :
    extend (IpdSummaryKey.new "chrX" 100 0) 1 2 =
      extend_without_strand (IpdSummaryKey.new "chrX" 100 0) 1 2 ∧
    extend (IpdSummaryKey.new "chrX" 100 1) 1 2 =
      Except.map List.reverse (extend_without_strand (IpdSummaryKey.new "chrX" 100 1) 2 1) :=
  ⟨(extend_strand_equiv (IpdSummaryKey.new "chrX" 100 0) 1 2).1 rfl,
   (extend_strand_equiv (IpdSummaryKey.new "chrX" 100 1) 1 2).2 rfl⟩

/-- C2: for width `w ≥ 1` and extension `e ≥ 0`, a successful
per-occurrence expansion (`extend_without_strand` with `up = e`,
`down = e + w - 1`, reversed for a minus-strand occurrence) yields exactly
`(2e + w) * 2` keys, and the occurrence loop's `assert_eq` on the result
length never fails. -/
theorem expandOcc_length (k : IpdSummaryKey) (w e : Int) (hw : 1 ≤ w) (he : 0 ≤ e)
    (l : List IpdSummaryKey) (h : expandOcc k w e = .ok l)
    (lookup : IpdSummaryKey → IpdSummaryValue) (i : Nat) :
    (l.length : Int) = (2 * e + w) * 2 ∧
      processOcc lookup w e i k ≠ .error .assertFailed := by
  refine ⟨expandOcc_ok_length hw he h, ?_⟩
  unfold processOcc
  split
  · intro hc
    exact MainError.noConfusion (Except.error.inj hc)
  · rename_i target_keys heq
    split
    · intro hc
      exact MainError.noConfusion (Except.error.inj hc)
    · rename_i target_vals hmap2
      have hklen : (target_keys.length : Int) = (2 * e + w) * 2 :=
        expandOcc_ok_length hw he heq
      have hvlen : target_vals.length = target_keys.enum.length :=
        mapM_option_length _ _ _ hmap2
      rw [List.enum_length] at hvlen
      have hcond : (target_vals.length : Int) = (e * 2 + w) * 2 := by
        rw [hvlen, hklen]; ring
      rw [if_pos hcond]
      intro hc
      exact Except.noConfusion hc

/-- C2 witness: the occurrence (chr1, 5, plus) with width 1 and
extension 1 expands to the six keys over positions 4..6, and the length
assertion does not fire on it. -/
theorem expandOcc_length_w :
    ((rangeFlat "chr1" 4 6).length : Int) = (2 * 1 + 1) * 2 ∧
      processOcc (fun _ => IpdSummaryValue.default) 1 1 0 (IpdSummaryKey.new "chr1" 5 0) ≠
        .error .assertFailed :=
  expandOcc_length (IpdSummaryKey.new "chr1" 5 0) 1 1 (by decide) (by decide)
    (rangeFlat "chr1" 4 6) (by decide) (fun _ => IpdSummaryValue.default) 0

/-- C7: window-extension arithmetic never silently wraps.  If the checked
subtraction of `up` from the position fails, `extend_without_strand`
aborts with the overflow error carrying the original position and `up`;
if the subtraction succeeds and the checked addition of `down` fails, it
aborts carrying the original position and `down`; on success the keys
cover the exact mathematical range `[tpl - up, tpl + down]`, inside the
`i64` bounds (no clamping or wrapping).  The strand-respecting `extend`
likewise aborts with the offending position and extension length whenever
one of its checked operations fails. -/
theorem extend_overflow_fatal (k : IpdSummaryKey) (up down : Int) :
    (checkedSub k.tpl up = none →
      extend_without_strand k up down = .error (.overflow k.tpl up)) ∧
    (checkedSub k.tpl up ≠ none → checkedAdd k.tpl down = none →
      extend_without_strand k up down = .error (.overflow k.tpl down)) ∧
    (∀ l, extend_without_strand k up down = .ok l →
      l = rangeFlat k.refName (k.tpl - up) (k.tpl + down) ∧
        i64Min ≤ k.tpl - up ∧ k.tpl + down ≤ i64Max) ∧
    (k.strand = 0 → (checkedSub k.tpl up = none ∨ checkedAdd k.tpl down = none) →
      ∃ x, (x = up ∨ x = down) ∧ extend k up down = .error (.overflow k.tpl x)) ∧
    (k.strand = 1 → (checkedSub k.tpl down = none ∨ checkedAdd k.tpl up = none) →
      ∃ x, (x = up ∨ x = down) ∧ extend k up down = .error (.overflow k.tpl x)) := by
  obtain ⟨chr, tpl, s⟩ := k
  refine ⟨?_, ?_, fun l h => extend_without_strand_ok h, ?_, ?_⟩
  · intro hsub
    unfold extend_without_strand
    simp only at hsub
    rw [hsub]
  · intro hsub hadd
    unfold extend_without_strand
    simp only at hsub hadd
    cases hs : checkedSub tpl up with
    | none => exact absurd hs hsub
    | some pl => rw [hadd]
  · intro hs hor
    simp only at hs hor ⊢
    subst hs
    show (∃ x, (x = up ∨ x = down) ∧
      (match checkedSub tpl up with
        | none => Except.error (ExtendError.overflow tpl up)
        | some position_left =>
          match checkedAdd tpl down with
          | none => Except.error (ExtendError.overflow tpl down)
          | some position_right =>
            Except.ok (rangeFlat chr position_left position_right)) =
        .error (.overflow tpl x))
    cases hsub : checkedSub tpl up with
    | none => exact ⟨up, Or.inl rfl, rfl⟩
    | some pl =>
      cases hadd : checkedAdd tpl down with
      | none => exact ⟨down, Or.inr rfl, rfl⟩
      | some pr =>
        rcases hor with h | h
        · rw [hsub] at h; exact Option.noConfusion h
        · rw [hadd] at h; exact Option.noConfusion h
  · intro hs hor
    simp only at hs hor ⊢
    subst hs
    show (∃ x, (x = up ∨ x = down) ∧
      (match checkedSub tpl down with
        | none => Except.error (ExtendError.overflow tpl down)
        | some position_left =>
          match checkedAdd tpl up with
          | none => Except.error (ExtendError.overflow tpl up)
          | some position_right =>
            Except.ok (rangeFlat chr position_left position_right).reverse) =
        .error (.overflow tpl x))
    cases hsub : checkedSub tpl down with
    | none => exact ⟨down, Or.inr rfl, rfl⟩
    | some pl =>
      cases hadd : checkedAdd tpl up with
      | none => exact ⟨up, Or.inl rfl, rfl⟩
      | some pr =>
        rcases hor with h | h
        · rw [hsub] at h; exact Option.noConfusion h
        · rw [hadd] at h; exact Option.noConfusion h

/-- C7 witness: at position `-2^63` an upstream extension of 1 overflows
and the expansion aborts with that position and extension length; at
position 5 with extensions 1 and 1 the expansion succeeds with the exact
range `[4, 6]`. -/
theorem extend_overflow_fatal_w :
    extend_without_strand (IpdSummaryKey.new "chr1" (-(2 ^ 63)) 0) 1 0 =
      .error (.overflow (-(2 ^ 63)) 1) ∧
    (rangeFlat "chr1" 4 6 = rangeFlat "chr1" (5 - 1) (5 + 1) ∧
      i64Min ≤ 5 - 1 ∧ (5 : Int) + 1 ≤ i64Max) :=
  ⟨(extend_overflow_fatal (IpdSummaryKey.new "chr1" (-(2 ^ 63)) 0) 1 0).1 (by decide),
   (extend_overflow_fatal (IpdSummaryKey.new "chr1" 5 0) 1 1).2.2.1
     (rangeFlat "chr1" 4 6) (by decide)⟩

/-- C3: for `w ≥ 1`, `e ≥ 0`, `1 ≤ p ≤ 2e + w` and strand `+` or `-`,
`create_label` returns the concatenation of a part code, a relative
position and a strand code with: part `s` and relative position `p` when
`p ≤ e`; part `m` and `p - e` when `e < p ≤ e + w`; part `e` and
`p - e - w` when `e + w < p ≤ 2e + w`; strand code `p` for `+` and `m`
for `-`.  For `p ≤ 0` or `p > 2e + w` the labeling is a fatal error. -/
theorem create_label_spec :
    (∀ (p w e : Int) (c : Char), 1 ≤ w → 0 ≤ e → 1 ≤ p → p ≤ 2 * e + w →
      c = '+' ∨ c = '-' →
      ∃ part rel sc,
        create_label p w e c =
          some (String.singleton part ++ toString rel ++ String.singleton sc) ∧
        (p ≤ e → part = 's' ∧ rel = p) ∧
        (e < p → p ≤ e + w → part = 'm' ∧ rel = p - e) ∧
        (e + w < p → part = 'e' ∧ rel = p - e - w) ∧
        (c = '+' → sc = 'p') ∧ (c = '-' → sc = 'm')) ∧
    (∀ (p w e : Int) (c : Char), 1 ≤ w → 0 ≤ e → (p ≤ 0 ∨ 2 * e + w < p) →
      create_label p w e c = none) := by
  constructor
  · intro p w e c hw he hp1 hp2 hc
    have hnp : ¬ p ≤ 0 := by omega
    by_cases h1 : p ≤ e
    · rcases hc with rfl | rfl
      · exact ⟨'s', p, 'p', by simp [create_label, labelPart, hnp, h1],
          fun _ => ⟨rfl, rfl⟩, fun hlt _ => absurd hlt (by omega),
          fun hlt => absurd hlt (by omega), fun _ => rfl,
          fun hcc => absurd hcc (by decide)⟩
      · exact ⟨'s', p, 'm', by simp [create_label, labelPart, hnp, h1],
          fun _ => ⟨rfl, rfl⟩, fun hlt _ => absurd hlt (by omega),
          fun hlt => absurd hlt (by omega), fun hcc => absurd hcc (by decide),
          fun _ => rfl⟩
    · by_cases h2 : p ≤ e + w
      · rcases hc with rfl | rfl
        · exact ⟨'m', p - e, 'p', by simp [create_label, labelPart, hnp, h1, h2],
            fun hle => absurd hle h1, fun _ _ => ⟨rfl, rfl⟩,
            fun hlt => absurd hlt (by omega), fun _ => rfl,
            fun hcc => absurd hcc (by decide)⟩
        · exact ⟨'m', p - e, 'm', by simp [create_label, labelPart, hnp, h1, h2],
            fun hle => absurd hle h1, fun _ _ => ⟨rfl, rfl⟩,
            fun hlt => absurd hlt (by omega), fun hcc => absurd hcc (by decide),
            fun _ => rfl⟩
      · rcases hc with rfl | rfl
        · exact ⟨'e', p - e - w, 'p',
            by simp [create_label, labelPart, hnp, h1, h2, hp2],
            fun hle => absurd hle h1, fun _ hle => absurd hle h2,
            fun _ => ⟨rfl, rfl⟩, fun _ => rfl, fun hcc => absurd hcc (by decide)⟩
        · exact ⟨'e', p - e - w, 'm',
            by simp [create_label, labelPart, hnp, h1, h2, hp2],
            fun hle => absurd hle h1, fun _ hle => absurd hle h2,
            fun _ => ⟨rfl, rfl⟩, fun hcc => absurd hcc (by decide), fun _ => rfl⟩
  · intro p w e c hw he hout
    rcases hout with hle | hgt
    · simp [create_label, labelPart, hle]
    · have c1 : ¬ p ≤ 0 := by omega
      have c2 : ¬ p ≤ e := by omega
      have c3 : ¬ p ≤ e + w := by omega
      have c4 : ¬ p ≤ 2 * e + w := by omega
      simp [create_label, labelPart, c1, c2, c3, c4]

/-- C3 witness: at width 3, extension 2, `create_label` labels offset 1
as `s1p` on the plus strand, and rejects offset 0. -/
theorem create_label_spec_w :
    create_label 1 3 2 '+' = some "s1p" ∧ create_label 0 3 2 '+' = none := by
  refine ⟨?_, create_label_spec.2 0 3 2 '+' (by decide) (by decide) (Or.inl (by decide))⟩
  obtain ⟨part, rel, sc, hlabel, hs, -, -, hp, -⟩ :=
    create_label_spec.1 1 3 2 '+' (by decide) (by decide) (by decide) (by decide)
      (Or.inl rfl)
  obtain ⟨hpart, hrel⟩ := hs (by decide)
  rw [hlabel, hpart, hrel, hp rfl]
  decide

/-- C8: within the valid offset range the human-readable region name
agrees with the label's part code: "Upstream" exactly for part `s`,
"Target" exactly for part `m`, "Downstream" exactly for part `e`. -/
theorem create_region_matches_label (p w e : Int) (hw : 1 ≤ w) (he : 0 ≤ e)
    (hp1 : 1 ≤ p) (hp2 : p ≤ 2 * e + w) :
    (create_region p w e = some "Upstream" ↔ labelPart p w e = some 's') ∧
    (create_region p w e = some "Target" ↔ labelPart p w e = some 'm') ∧
    (create_region p w e = some "Downstream" ↔ labelPart p w e = some 'e') := by
  unfold create_region labelPart
  split_ifs <;> refine ⟨?_, ?_, ?_⟩ <;> simp

/-- C8 witness: the agreement at offset 1 in a width-1, extension-0
window. -/
theorem create_region_matches_label_w :
    (create_region 1 1 0 = some "Upstream" ↔ labelPart 1 1 0 = some 's') ∧
    (create_region 1 1 0 = some "Target" ↔ labelPart 1 1 0 = some 'm') ∧
    (create_region 1 1 0 = some "Downstream" ↔ labelPart 1 1 0 = some 'e') :=
  create_region_matches_label 1 1 0 (by decide) (by decide) (by decide) (by decide)

/-- C4: whenever the row-map backend and the columnar backend hold
equivalent data, the `HashMap` lookup with default fallback and
`ChrKineticsHdf5::get_ipd_summary_value` return the same kinetics record
for every valid coordinate key with positive 1-based position. -/
theorem backends_agree (m : RowMap) (c : ChrKineticsHdf5) (k : IpdSummaryKey)
    (hequiv : equivData m c) (htpl : 1 ≤ k.tpl) (hstrand : k.strand < 2) :
    rowLookup m k = get_ipd_summary_value c k := by
  have h := hequiv k htpl hstrand
  have hpre : (0 : Int) ≤ pre_index k := by
    unfold pre_index
    omega
  unfold rowLookup get_ipd_summary_value
  rw [if_pos hpre]
  by_cases hhit : (pre_index k).toNat < c.coverage.length ∧
      0 < c.coverage.getD (pre_index k).toNat 0
  · rw [if_pos hhit]
    have hm : m k = some (hitValue c (pre_index k).toNat) :=
      (h (hitValue c (pre_index k).toNat)).mpr ⟨hhit.1, hhit.2, rfl⟩
    rw [hm]
    rfl
  · rw [if_neg hhit]
    cases hm : m k with
    | none => rfl
    | some v =>
      obtain ⟨h1, h2, -⟩ := (h v).mp hm
      exact absurd ⟨h1, h2⟩ hhit

/-- C4 witness: the empty row map and the empty columnar table hold
equivalent data, and both lookups return the default record at
(chr1, 1, plus). -/
theorem backends_agree_w :
    rowLookup (fun _ => none) (IpdSummaryKey.new "chr1" 1 0) =
      get_ipd_summary_value ChrKineticsHdf5.default (IpdSummaryKey.new "chr1" 1 0) :=
  backends_agree (fun _ => none) ChrKineticsHdf5.default (IpdSummaryKey.new "chr1" 1 0)
    (by
      intro k h1 h2 v
      constructor
      · intro hv
        exact Option.noConfusion hv
      · rintro ⟨hlen, -, -⟩
        simp [ChrKineticsHdf5.default] at hlen)
    (by decide) (by decide)

/-- C5: the kinetics lookup is total and falls back to the default
missing record: a key absent from the row map resolves to the default
record; the columnar lookup returns the default record whenever the
derived offset is negative, out of range, or has stored coverage zero;
and when the requested chromosome is absent from the dataset entirely,
the lookup returns the default record for every key of that
chromosome. -/
theorem lookup_total_default :
    (∀ (m : RowMap) (k : IpdSummaryKey), m k = none →
      rowLookup m k = IpdSummaryValue.default) ∧
    (∀ (c : ChrKineticsHdf5) (k : IpdSummaryKey),
      (pre_index k < 0 ∨ ¬ (pre_index k).toNat < c.coverage.length ∨
        c.coverage.getD (pre_index k).toNat 0 = 0) →
      get_ipd_summary_value c k = IpdSummaryValue.default) ∧
    (∀ (ds : ChrMap) (k : IpdSummaryKey), ds k.refName = none →
      get_ipd_summary_value (chrLookup ds k.refName) k = IpdSummaryValue.default) := by
  refine ⟨?_, ?_, ?_⟩
  · intro m k hm
    unfold rowLookup
    rw [hm]
    rfl
  · intro c k hmiss
    unfold get_ipd_summary_value
    by_cases h1 : 0 ≤ pre_index k
    · have hneg : ¬ ((pre_index k).toNat < c.coverage.length ∧
          0 < c.coverage.getD (pre_index k).toNat 0) := by
        intro hc
        rcases hmiss with h | h | h
        · omega
        · exact h hc.1
        · omega
      rw [if_pos h1, if_neg hneg]
    · rw [if_neg h1]
  · intro ds k hds
    unfold chrLookup
    rw [hds]
    show get_ipd_summary_value ChrKineticsHdf5.default k = IpdSummaryValue.default
    unfold get_ipd_summary_value
    by_cases h1 : 0 ≤ pre_index k
    · have hneg : ¬ ((pre_index k).toNat <
            ChrKineticsHdf5.default.coverage.length ∧
          0 < ChrKineticsHdf5.default.coverage.getD (pre_index k).toNat 0) := by
        simp [ChrKineticsHdf5.default]
      rw [if_pos h1, if_neg hneg]
    · rw [if_neg h1]

/-- C5 witness: an absent key in the row map, an empty columnar table,
and an absent chromosome all resolve to the default record at
(chr1, 1, plus). -/
theorem lookup_total_default_w :
    rowLookup (fun _ => none) (IpdSummaryKey.new "chr1" 1 0) = IpdSummaryValue.default ∧
    get_ipd_summary_value ChrKineticsHdf5.default (IpdSummaryKey.new "chr1" 1 0) =
      IpdSummaryValue.default ∧
    get_ipd_summary_value (chrLookup (fun _ => none) "chr1")
      (IpdSummaryKey.new "chr1" 1 0) = IpdSummaryValue.default :=
  ⟨lookup_total_default.1 (fun _ => none) (IpdSummaryKey.new "chr1" 1 0) rfl,
   lookup_total_default.2.1 ChrKineticsHdf5.default (IpdSummaryKey.new "chr1" 1 0)
     (Or.inr (Or.inl (by decide))),
   lookup_total_default.2.2 (fun _ => none) (IpdSummaryKey.new "chr1" 1 0) rfl⟩

/-- C9: a coordinate key with non-positive 1-based position (and binary
strand, so that the derived offset `(tpl - 1) * 2 + strand` is negative)
resolves to the default missing record in the columnar backend, without
any index error. -/
theorem nonpositive_tpl_default (c : ChrKineticsHdf5) (k : IpdSummaryKey)
    (htpl : k.tpl ≤ 0) (hstrand : k.strand < 2) :
    get_ipd_summary_value c k = IpdSummaryValue.default := by
  unfold get_ipd_summary_value
  rw [if_neg]
  unfold pre_index
  omega

/-- C9 witness: position 0 on the minus strand against a non-empty
columnar table yields the default record. -/
theorem nonpositive_tpl_default_w :
    get_ipd_summary_value
      ⟨[1], [0], ["A"], [10], [.finite 1], [.finite 1], [.finite 1], [.finite 1],
        [7], [.nan], [.nan], [.nan]⟩
      (IpdSummaryKey.new "chr1" 0 1) = IpdSummaryValue.default :=
  nonpositive_tpl_default _ (IpdSummaryKey.new "chr1" 0 1) (by decide) (by decide)

/-- C10: in every record returned by the columnar lookup, `frac`,
`fracLow` and `fracUp` are all present or all absent; and when the lookup
hits (non-negative derived offset inside the arrays, positive stored
coverage), their presence equals finiteness of the stored `frac` value at
the derived offset — a non-finite stored `frac` hides `fracLow` and
`fracUp` too. -/
theorem frac_presence (c : ChrKineticsHdf5) (k : IpdSummaryKey) :
    ((get_ipd_summary_value c k).frac.isSome =
        (get_ipd_summary_value c k).fracLow.isSome ∧
      (get_ipd_summary_value c k).fracLow.isSome =
        (get_ipd_summary_value c k).fracUp.isSome) ∧
    (0 ≤ pre_index k →
      (pre_index k).toNat < c.coverage.length →
      0 < c.coverage.getD (pre_index k).toNat 0 →
      (get_ipd_summary_value c k).frac.isSome =
        (c.frac.getD (pre_index k).toNat .nan).isFinite) := by
  unfold get_ipd_summary_value
  by_cases h1 : 0 ≤ pre_index k
  · rw [if_pos h1]
    by_cases h2 : (pre_index k).toNat < c.coverage.length ∧
        0 < c.coverage.getD (pre_index k).toNat 0
    · rw [if_pos h2]
      refine ⟨?_, fun _ _ _ => ?_⟩ <;>
        · unfold hitValue
          cases hf : (c.frac.getD (pre_index k).toNat .nan).isFinite <;> simp [hf]
    · rw [if_neg h2]
      exact ⟨⟨rfl, rfl⟩, fun _ hlen hcov => absurd ⟨hlen, hcov⟩ h2⟩
  · rw [if_neg h1]
    exact ⟨⟨rfl, rfl⟩, fun hpre _ _ => absurd hpre h1⟩

/-- C10 witness: a stored NaN `frac` with finite stored `fracLow` and
`fracUp` makes all three fields absent in the returned record even though
the lookup hits. -/
theorem frac_presence_w :
    ((get_ipd_summary_value
        ⟨[1], [0], ["A"], [10], [.finite 1], [.finite 1], [.finite 1], [.finite 1],
          [7], [.nan], [.finite 0], [.finite 1]⟩
        (IpdSummaryKey.new "chr1" 1 0)).frac.isSome =
      (get_ipd_summary_value
        ⟨[1], [0], ["A"], [10], [.finite 1], [.finite 1], [.finite 1], [.finite 1],
          [7], [.nan], [.finite 0], [.finite 1]⟩
        (IpdSummaryKey.new "chr1" 1 0)).fracLow.isSome ∧
      (get_ipd_summary_value
        ⟨[1], [0], ["A"], [10], [.finite 1], [.finite 1], [.finite 1], [.finite 1],
          [7], [.nan], [.finite 0], [.finite 1]⟩
        (IpdSummaryKey.new "chr1" 1 0)).fracLow.isSome =
      (get_ipd_summary_value
        ⟨[1], [0], ["A"], [10], [.finite 1], [.finite 1], [.finite 1], [.finite 1],
          [7], [.nan], [.finite 0], [.finite 1]⟩
        (IpdSummaryKey.new "chr1" 1 0)).fracUp.isSome) ∧
    (get_ipd_summary_value
        ⟨[1], [0], ["A"], [10], [.finite 1], [.finite 1], [.finite 1], [.finite 1],
          [7], [.nan], [.finite 0], [.finite 1]⟩
        (IpdSummaryKey.new "chr1" 1 0)).frac.isSome =
      (([F32.nan].getD (pre_index (IpdSummaryKey.new "chr1" 1 0)).toNat .nan).isFinite) :=
  ⟨(frac_presence _ (IpdSummaryKey.new "chr1" 1 0)).1,
   (frac_presence
      ⟨[1], [0], ["A"], [10], [.finite 1], [.finite 1], [.finite 1], [.finite 1],
        [7], [.nan], [.finite 0], [.finite 1]⟩
      (IpdSummaryKey.new "chr1" 1 0)).2 (by decide) (by decide) (by decide)⟩

/-- C6: if `extension * 2 + width` is not representable in `i64`, the run
aborts with the `RegionOverflow` error before processing any occurrence
or producing any row (whatever the occurrence list and the kinetics
data), and that error is distinct from the per-occurrence
coordinate-overflow error. -/
theorem region_overflow_first (lookup : IpdSummaryKey → IpdSummaryValue)
    (occ_width region_extension : Int) (occs : List IpdSummaryKey)
    (er : ExtendError)
    (hov : ¬ (i64Min ≤ region_extension * 2 + occ_width ∧
      region_extension * 2 + occ_width ≤ i64Max)) :
    runMain lookup occ_width region_extension occs = .error .regionOverflow ∧
      MainError.regionOverflow ≠ MainError.occError er := by
  refine ⟨?_, fun hc => MainError.noConfusion hc⟩
  unfold runMain mainCheck
  cases hm : checkedMul region_extension 2 with
  | none => rfl
  | some x =>
    obtain ⟨hx, -, -⟩ := checkedMul_some hm
    subst hx
    have hadd : checkedAdd (region_extension * 2) occ_width = none := by
      unfold checkedAdd
      rw [if_neg hov]
    simp only [hadd]

/-- C6 witness: extension `i64Max / 2` with width 10 (and a non-empty
occurrence list) aborts with `RegionOverflow`, which differs from the
coordinate-overflow error. -/
theorem region_overflow_first_w :
    runMain (fun _ => IpdSummaryValue.default) 10 4611686018427387903
        [IpdSummaryKey.new "chr1" 5 0] = .error .regionOverflow ∧
      MainError.regionOverflow ≠ MainError.occError (.overflow 5 10) :=
  region_overflow_first (fun _ => IpdSummaryValue.default) 10 4611686018427387903
    [IpdSummaryKey.new "chr1" 5 0] (.overflow 5 10) (by decide)

end CRK
